import Mathlib

/-!
Shallow embedding of the used-car listing scraper (scraper_updated.py).

Pure pipeline pieces are translated directly from the source: the field
parsers (parse_price, parse_miles, parse_year_from_text, _to_int), the URL
helpers (_abs, _normalize_url over models of urlsplit / urlunsplit / urljoin
from CPython urllib.parse), the structured-data walk (_walk_find_listings),
record coercion (_coerce_listing), year filtering (_enforce_year),
deduplication (_dedupe_and_trim), VDP enrichment (enrich_vdp, with the page
reads modelled as an explicit record of read results), and the pure tail of
the orchestrator query_listings_async (merge, optional enrichment pass,
year re-filter, url filter, stable ascending sort by the code's key).

Modelling conventions: Python strings are Lean String / List Char (character
classes are modelled on the ASCII / Latin-1 range; CPython's additional
Unicode case folding, digits and whitespace beyond that range, and the
host-validation error paths of urlsplit, are outside the model), Python
ints are Int, None is Option.none, and Python truthiness is made explicit
(None / 0 / "" are falsy).  Fallible steps return Option; a caught
exception is an Option.none / Except.error branch.
-/

/-- Whitespace as recognised by Python's str.strip and re's space class,
restricted to the Latin-1 range (ASCII whitespace, the C1 controls
x1c-x1f, NEL x85, NBSP xa0). -/
def isPySpace (c : Char) : Bool :=
  c = ' ' || c = '\t' || c = '\n' || c = '\r' ||
  decide (c.toNat = 11) || decide (c.toNat = 12) ||
  decide (c.toNat = 28) || decide (c.toNat = 29) || decide (c.toNat = 30) ||
  decide (c.toNat = 31) || decide (c.toNat = 133) || decide (c.toNat = 160)

/-- Python str.strip(): drop leading and trailing whitespace. -/
def pyStrip (l : List Char) : List Char :=
  ((l.dropWhile isPySpace).reverse.dropWhile isPySpace).reverse

/-- Valid continuation of an int() literal body: digits with single
underscores allowed only between digits. -/
def intBody : List Char → Bool
  | [] => true
  | c :: rest =>
    if c = '_' then
      match rest with
      | d :: rest2 => d.isDigit && intBody rest2
      | [] => false
    else c.isDigit && intBody rest

/-- A nonempty unsigned int() literal body. -/
def pyIntValid : List Char → Bool
  | [] => false
  | c :: rest => c.isDigit && intBody rest

/-- Numeric value of the digits of a literal (underscores skipped). -/
def digitsNatVal (l : List Char) : Nat :=
  (l.filter Char.isDigit).foldl (fun a c => a * 10 + (c.toNat - 48)) 0

/-- Python int(s) on a string: optional surrounding whitespace, optional
sign, then a digit body; any other shape raises (here: none). -/
def pyInt (l : List Char) : Option Int :=
  let t := pyStrip l
  match t with
  | '+' :: rest => if pyIntValid rest then some (digitsNatVal rest : Int) else none
  | '-' :: rest => if pyIntValid rest then some (-(digitsNatVal rest : Int)) else none
  | _ => if pyIntValid t then some (digitsNatVal t : Int) else none

/-- _to_int on a string argument: int(s.replace(",", "").strip()),
exceptions swallowed to None. -/
def toIntStr (s : List Char) : Option Int :=
  pyInt (pyStrip (s.filter (fun c => c != ',')))

/-- text.replace("\xa0", " ") applied before the price/miles regexes. -/
def nbspFix (l : List Char) : List Char :=
  l.map (fun c => if c.toNat = 160 then ' ' else c)

/-- Character class [\d,] of the price/miles regexes. -/
def isDigitComma (c : Char) : Bool := c.isDigit || c = ','

/-- Leftmost match of the price regex \$[\s]*([\d,]+): at each position, a
dollar sign, then optional whitespace, then a nonempty digit/comma group.
Returns group(1). -/
def priceGroup : List Char → Option (List Char)
  | [] => none
  | c :: rest =>
    if c = '$' then
      let ds := (rest.dropWhile isPySpace).takeWhile isDigitComma
      if ds.isEmpty then priceGroup rest else some ds
    else priceGroup rest

/-- parse_price: None on falsy input, else regex search after NBSP fix,
group(1) through _to_int. -/
def parse_price (t : Option String) : Option Int :=
  match t with
  | none => none
  | some s =>
    if s = "" then none
    else
      match priceGroup (nbspFix s.data) with
      | none => none
      | some g => toIntStr g

/-- ASCII lower-casing (Python str.lower on the ASCII range). -/
def asciiLower (c : Char) : Char :=
  if 65 ≤ c.toNat ∧ c.toNat ≤ 90 then Char.ofNat (c.toNat + 32) else c

/-- Match of ([\d,]+)\s*mile (case-insensitive) anchored at the head:
maximal digit/comma group, optional whitespace, then "mile".
Returns group(1). -/
def milesAt (l : List Char) : Option (List Char) :=
  let ds := l.takeWhile isDigitComma
  if ds.isEmpty then none
  else
    let after := (l.drop ds.length).dropWhile isPySpace
    if (after.take 4).map asciiLower = ['m', 'i', 'l', 'e'] then some ds else none

/-- Leftmost match of the miles regex ([\d,]+)\s*miles? (re.I). -/
def milesSearch : List Char → Option (List Char)
  | [] => none
  | c :: rest =>
    match milesAt (c :: rest) with
    | some g => some g
    | none => milesSearch rest

/-- parse_miles: None on falsy input, else regex search after NBSP fix,
group(1) through _to_int. -/
def parse_miles (t : Option String) : Option Int :=
  match t with
  | none => none
  | some s =>
    if s = "" then none
    else
      match milesSearch (nbspFix s.data) with
      | none => none
      | some g => toIntStr g

/-- Word character for the \b boundaries of the year regex (ASCII \w). -/
def isWordChar (c : Char) : Bool := c.isAlphanum || c = '_'

/-- Match of (19|20)\d{2}\b anchored at the head (the left \b is checked by
the caller): 19 or 20, two digits, then a non-word character or the end.
Returns int(group(0)). -/
def yearAt : List Char → Option Int
  | c1 :: c2 :: c3 :: c4 :: rest =>
    if ((c1 = '1' && c2 = '9') || (c1 = '2' && c2 = '0')) && c3.isDigit && c4.isDigit &&
        (match rest with | [] => true | r :: _ => !isWordChar r) then
      some (((c1.toNat - 48) * 1000 + (c2.toNat - 48) * 100 +
             (c3.toNat - 48) * 10 + (c4.toNat - 48) : Nat) : Int)
    else none
  | _ => none

/-- Leftmost match of \b(19|20)\d{2}\b: at each position whose predecessor
is absent or a non-word character, try the anchored year pattern. -/
def yearSearch : Option Char → List Char → Option Int
  | _, [] => none
  | prev, c :: rest =>
    if (match prev with | none => true | some p => !isWordChar p) then
      match yearAt (c :: rest) with
      | some v => some v
      | none => yearSearch (some c) rest
    else yearSearch (some c) rest

/-- parse_year_from_text: None on falsy input, else the year regex search
(no NBSP replacement in this parser). -/
def parse_year_from_text (t : Option String) : Option Int :=
  match t with
  | none => none
  | some s => if s = "" then none else yearSearch none s.data

/-- True ASCII letter test for the urlsplit scheme check
(url[0].isascii() and url[0].isalpha()). -/
def isAsciiAlpha (c : Char) : Bool :=
  (decide (65 ≤ c.toNat) && decide (c.toNat ≤ 90)) ||
  (decide (97 ≤ c.toNat) && decide (c.toNat ≤ 122))

/-- ASCII digit test. -/
def isAsciiDigit (c : Char) : Bool := decide (48 ≤ c.toNat) && decide (c.toNat ≤ 57)

/-- urllib.parse scheme_chars: letters, digits, plus, minus, dot. -/
def isSchemeChar (c : Char) : Bool :=
  isAsciiAlpha c || isAsciiDigit c || c = '+' || c = '-' || c = '.'

/-- Characters urlsplit removes up front (tab, CR, LF). -/
def notUnsafeChar (c : Char) : Bool := !(c = '\t' || c = '\r' || c = '\n')

/-- The five components produced by urlsplit. -/
structure SplitUrl where
  scheme : List Char
  netloc : List Char
  path : List Char
  query : List Char
  frag : List Char
deriving DecidableEq, Repr

/-- Scheme step of urlsplit: if a colon exists at position i > 0, the head
is an ASCII letter and positions 1..i-1 are scheme characters, the scheme
is the lower-cased prefix and the rest follows the colon; otherwise the
default scheme is kept and the input is unchanged. -/
def splitScheme (defS l : List Char) : List Char × List Char :=
  let a := l.takeWhile (fun c => c != ':')
  if a.length < l.length &&
      (match a with
       | [] => false
       | c :: cs => isAsciiAlpha c && cs.all isSchemeChar) then
    (a.map asciiLower, (l.dropWhile (fun c => c != ':')).drop 1)
  else (defS, l)

/-- Netloc step of urlsplit: when url[:2] == "//", the netloc runs from
position 2 to the next "/", "?" or "#"; the delimiter stays in the
remainder. -/
def splitNetloc (l : List Char) : List Char × List Char :=
  if l.take 2 = ['/', '/'] then
    ((l.drop 2).takeWhile (fun c => !(c = '/' || c = '?' || c = '#')),
     (l.drop 2).dropWhile (fun c => !(c = '/' || c = '?' || c = '#')))
  else ([], l)

/-- url.split(ch, 1): the part before the first occurrence and the part
after it (empty when the character is absent). -/
def cutOnFirst (ch : Char) (l : List Char) : List Char × List Char :=
  (l.takeWhile (fun c => c != ch), (l.dropWhile (fun c => c != ch)).drop 1)

/-- C0 control characters and space (the WHATWG strip set of urlsplit). -/
def isC0OrSpace (c : Char) : Bool := decide (c.toNat ≤ 32)

/-- urlsplit(url, scheme=defS), CPython 3.11: left-strip C0/space from the
url (both ends for the default scheme), remove unsafe characters, then
split off scheme, netloc, fragment and query in CPython's order.  (The
bracketed-host validation, which can raise, is outside the model.) -/
def urlsplitChars (defS l : List Char) : SplitUrl :=
  let l0 := (l.dropWhile isC0OrSpace).filter notUnsafeChar
  let d0 := (((defS.dropWhile isC0OrSpace).reverse.dropWhile isC0OrSpace).reverse).filter notUnsafeChar
  let sp := splitScheme d0 l0
  let np := splitNetloc sp.2
  let fp := cutOnFirst '#' np.2
  let qp := cutOnFirst '?' fp.1
  ⟨sp.1, np.1, qp.1, qp.2, fp.2⟩

/-- urllib.parse.uses_relative (CPython 3.11). -/
def uses_relative : List (List Char) :=
  ["", "ftp", "http", "gopher", "nntp", "imap", "wais", "file", "https", "shttp",
   "mms", "prospero", "rtsp", "rtsps", "rtspu", "sftp", "svn", "svn+ssh",
   "ws", "wss"].map String.data

/-- urllib.parse.uses_netloc (CPython 3.11). -/
def uses_netloc : List (List Char) :=
  ["", "ftp", "http", "gopher", "nntp", "telnet", "imap", "wais", "file", "mms",
   "https", "shttp", "snews", "prospero", "rtsp", "rtsps", "rtspu", "rsync",
   "svn", "svn+ssh", "sftp", "nfs", "git", "git+ssh", "ws", "wss"].map String.data

/-- urlunsplit on the five components (CPython 3.11: the "//" marker is
emitted when there is a netloc, or when the scheme is one that uses a
netloc and the path does not already start with "//"). -/
def urlunsplitChars (s n p q f : List Char) : List Char :=
  let u1 :=
    if n ≠ [] ∨ (s ≠ [] ∧ s ∈ uses_netloc ∧ p.take 2 ≠ ['/', '/']) then
      '/' :: '/' :: (n ++ (if p ≠ [] ∧ p.head? ≠ some '/' then '/' :: p else p))
    else p
  let u2 := if s ≠ [] then s ++ ':' :: u1 else u1
  let u3 := if q ≠ [] then u2 ++ '?' :: q else u2
  if f ≠ [] then u3 ++ '#' :: f else u3

/-- Body of _normalize_url on a nonempty string: split, blank out query and
fragment, unsplit. -/
def normChars (l : List Char) : List Char :=
  let u := urlsplitChars [] l
  urlunsplitChars u.scheme u.netloc u.path [] []

/-- _normalize_url: falsy input (None or "") is returned unchanged,
otherwise the query and fragment are stripped. -/
def _normalize_url : Option String → Option String
  | none => none
  | some s => if s = "" then some s else some (String.mk (normChars s.data))

/-- path.split("/"): always at least one (possibly empty) segment. -/
def splitSlash : List Char → List (List Char)
  | [] => [[]]
  | c :: rest =>
    if c = '/' then [] :: splitSlash rest
    else
      match splitSlash rest with
      | s :: ss => (c :: s) :: ss
      | [] => [[c]]

/-- "/".join(segs). -/
def joinSlash : List (List Char) → List Char
  | [] => []
  | s :: ss => s ++ ss.foldl (fun acc t => acc ++ '/' :: t) []

/-- segments[1:-1] = filter(None, segments[1:-1]): drop empty interior
segments, keeping the first and last. -/
def filterMiddle : List (List Char) → List (List Char)
  | [] => []
  | [a] => [a]
  | a :: rest => a :: ((rest.dropLast.filter (fun s => !s.isEmpty)) ++ [rest.getLastD []])

/-- The dot-segment resolution loop of urljoin: ".." pops (ignoring
underflow), "." is dropped, and a trailing "." or ".." re-appends an empty
segment. -/
def resolveSegs (segs : List (List Char)) : List (List Char) :=
  let r := segs.foldl
    (fun acc seg =>
      if seg = ['.', '.'] then acc.dropLast
      else if seg = ['.'] then acc
      else acc ++ [seg]) []
  if segs.getLastD [] = ['.'] ∨ segs.getLastD [] = ['.', '.'] then r ++ [[]] else r

/-- urljoin(base, url) following CPython 3.11: empty-argument shortcuts,
scheme inheritance, netloc inheritance, then relative-path resolution with
dot-segment handling.  (The params component, split off at a ";" in the
last path segment, is folded into the path here: the modelled inputs carry
no ";" params.) -/
def urljoinChars (base url : List Char) : List Char :=
  if base = [] then url
  else if url = [] then base
  else
    let b := urlsplitChars [] base
    let u := urlsplitChars b.scheme url
    if u.scheme ≠ b.scheme ∨ ¬ u.scheme ∈ uses_relative then url
    else
      let netlocStep : Option (List Char) :=
        if u.scheme ∈ uses_netloc then
          (if u.netloc ≠ [] then none else some b.netloc)
        else some u.netloc
      match netlocStep with
      | none => urlunsplitChars u.scheme u.netloc u.path u.query u.frag
      | some nl =>
        if u.path = [] then
          urlunsplitChars u.scheme nl b.path (if u.query = [] then b.query else u.query) u.frag
        else
          let baseParts := splitSlash b.path
          let baseParts := if baseParts.getLastD [] ≠ [] then baseParts.dropLast else baseParts
          let segments :=
            if u.path.take 1 = ['/'] then splitSlash u.path
            else filterMiddle (baseParts ++ splitSlash u.path)
          let joined := joinSlash (resolveSegs segments)
          urlunsplitChars u.scheme nl (if joined = [] then ['/'] else joined) u.query u.frag

/-- h.startswith(pre). -/
def pyStartsWith (pre l : List Char) : Bool := l.take pre.length == pre

/-- _abs(base, h): None on falsy h, else strip, then the protocol-relative,
absolute, bare-www and path cases. -/
def _abs (base : String) (h : Option String) : Option String :=
  match h with
  | none => none
  | some h0 =>
    if h0 = "" then none
    else
      let t := pyStrip h0.data
      if pyStartsWith ['/', '/'] t then some (String.mk ("https:".data ++ t))
      else if pyStartsWith "http://".data t || pyStartsWith "https://".data t then
        some (String.mk t)
      else if pyStartsWith "www.".data t then some (String.mk ("https://".data ++ t))
      else if pyStartsWith ['/'] t then some (String.mk (urljoinChars base.data t))
      else some (String.mk (urljoinChars base.data ('/' :: t)))

/-- Canonical listing record built by the pipeline.  String-valued fields
hold Option String (None-able Python strings); numeric fields Option Int. -/
structure Listing where
  source : String
  title : Option String
  price : Option Int
  miles : Option Int
  year : Option Int
  location : Option String
  dealer : Option String
  url : Option String
deriving DecidableEq, Repr

/-- Python truthiness of an optional string (None and "" are falsy). -/
def truthyS : Option String → Bool
  | none => false
  | some s => s != ""

/-- Python truthiness of an optional int (None and 0 are falsy). -/
def truthyI : Option Int → Bool
  | none => false
  | some n => n != 0

/-- Python "a or b" on optional ints. -/
def pyOrI (a b : Option Int) : Option Int := if truthyI a then a else b

/-- A raw candidate value: a string, an int, or absent.  (Other Python
value shapes do not occur in the modelled paths.) -/
inductive PyVal where
  | vstr (s : String)
  | vint (n : Int)
  | vnone
deriving DecidableEq, Repr

/-- Python truthiness of a raw value. -/
def PyVal.truthy : PyVal → Bool
  | .vstr s => s != ""
  | .vint n => n != 0
  | .vnone => false

/-- d.get(k) on a raw candidate dictionary. -/
def pyGet (d : List (String × PyVal)) (k : String) : PyVal :=
  match d.find? (fun kv => kv.1 == k) with
  | some kv => kv.2
  | none => .vnone

/-- Python "a or b" on raw values. -/
def pyOrV (a b : PyVal) : PyVal := if a.truthy then a else b

/-- _to_int: None for None, identity for ints (int(str(n)) = n), the
string parse otherwise. -/
def _to_int : PyVal → Option Int
  | .vnone => none
  | .vint n => some n
  | .vstr s => toIntStr s.data

/-- A raw string value as an optional string; non-string values are
narrowed to None (the modelled dictionaries carry strings in the text
fields). -/
def PyVal.asStr : PyVal → Option String
  | .vstr s => some s
  | _ => none

/-- _coerce_listing(d, source, base): ordered key fallbacks with Python
"or", string-to-int coercion through the field parsers, year backfill from
the title, and URL absolutization. -/
def _coerce_listing (d : List (String × PyVal)) (source : String) (base : String) : Listing :=
  let title := pyOrV (pyGet d "title") (pyGet d "heading")
  let price := pyOrV (pyGet d "price") (pyOrV (pyGet d "listPrice") (pyGet d "primaryPrice"))
  let miles := pyOrV (pyGet d "miles") (pyGet d "mileage")
  let url := pyOrV (pyGet d "url") (pyOrV (pyGet d "vdpUrl") (pyGet d "link"))
  let dealer := pyOrV (pyGet d "dealerName") (pyOrV (pyGet d "sellerName") (pyGet d "storeName"))
  let loc := pyOrV (pyGet d "location") (pyGet d "city")
  let year1 : PyVal :=
    match pyGet d "year" with
    | .vstr s => (match toIntStr s.data with | some n => .vint n | none => .vnone)
    | v => v
  let titleS := title.asStr
  let year2 : Option Int :=
    match year1 with
    | .vint n => if n != 0 then some n else parse_year_from_text titleS
    | _ => parse_year_from_text titleS
  let price2 : Option Int :=
    match price with
    | .vstr s => pyOrI (parse_price (some s)) (toIntStr s.data)
    | .vint n => some n
    | .vnone => none
  let miles2 : Option Int :=
    match miles with
    | .vstr s => pyOrI (parse_miles (some s)) (toIntStr s.data)
    | .vint n => some n
    | .vnone => none
  let url2 : Option String :=
    match url with
    | .vstr s => if s != "" then _abs base (some s) else some s
    | _ => none
  { source := source, title := titleS, price := price2, miles := miles2, year := year2,
    location := loc.asStr, dealer := dealer.asStr, url := url2 }

/-- _enforce_year: keep exactly the rows whose year equals the target. -/
def _enforce_year (rows : List Listing) (target : Int) : List Listing :=
  rows.filter (fun r => r.year == some target)

/-- Loop of _dedupe_and_trim: n is len(uniq) so far, seen the set of
normalized URLs already kept.  A row with a falsy or already-seen
normalized URL is skipped; a kept row has its url overwritten with the
normalized form; the loop stops once k rows are kept. -/
def dedupeGo (k : Nat) : Nat → List Listing → List String → List Listing
  | _, [], _ => []
  | n, r :: rest, seen =>
    match _normalize_url r.url with
    | none => dedupeGo k n rest seen
    | some u =>
      if u = "" then dedupeGo k n rest seen
      else if seen.contains u then dedupeGo k n rest seen
      else if k ≤ n + 1 then [{ r with url := some u }]
      else { r with url := some u } :: dedupeGo k (n + 1) rest (u :: seen)

/-- _dedupe_and_trim(rows, k). -/
def _dedupe_and_trim (rows : List Listing) (k : Nat) : List Listing :=
  dedupeGo k 0 rows []

/-- The observable results of the page reads enrich_vdp performs: for each
selector read, none models a raised read (timeout), some t the returned
text_content (itself None-able); html is the page markup. -/
structure VdpPage where
  priceRead : Option (Option String)
  milesRead : Option (Option String)
  titleRead : Option (Option String)
  html : String
deriving DecidableEq, Repr

/-- Python str.strip() on a string. -/
def pyStripS (s : String) : String := String.mk (pyStrip s.data)

/-- enrich_vdp(row) for a page whose reads produced pg: a falsy url returns
the row unchanged; otherwise price/miles/title/year are backfilled with
Python "or" (truthiness) semantics, falling back to parsing the whole
markup when price or miles is still falsy. -/
def enrich_vdp (pg : VdpPage) (row : Listing) : Listing :=
  if truthyS row.url = false then row
  else
    let price :=
      match pg.priceRead with
      | none => row.price
      | some t => pyOrI row.price (parse_price t)
    let miles :=
      match pg.milesRead with
      | none => row.miles
      | some t => pyOrI row.miles (parse_miles t)
    let title :=
      if truthyS row.title then row.title
      else
        match pg.titleRead with
        | some (some t) => some (pyStripS t)
        | _ => row.title
    let yearv :=
      if truthyI row.year then row.year
      else pyOrI (parse_year_from_text title) (parse_year_from_text (some pg.html))
    let pm :=
      if truthyI price = false ∨ truthyI miles = false then
        (pyOrI price (parse_price (some pg.html)), pyOrI miles (parse_miles (some pg.html)))
      else (price, miles)
    { row with price := pm.1, miles := pm.2, title := title, year := yearv }

/-- The skip condition of the enrichment loop: price, miles, title and year
all truthy. -/
def fullyPopulated (r : Listing) : Bool :=
  truthyI r.price && truthyI r.miles && truthyS r.title && truthyI r.year

/-- One iteration of the enrichment loop: fully populated rows are kept as
is, otherwise the enrichment outcome is used, with a fault (error) keeping
the pre-enrichment row. -/
def enrichStep (f : Listing → Except Unit Listing) (r : Listing) : Listing :=
  if fullyPopulated r then r
  else
    match f r with
    | .ok r2 => r2
    | .error _ => r

/-- The whole sequential enrichment loop over the merged rows, with the
per-listing enrichment outcome abstracted as f. -/
def enrichPass (f : Listing → Except Unit Listing) (rows : List Listing) : List Listing :=
  rows.map (enrichStep f)

/-- The sort key of query_listings_async: (10**9 if price is None else
price, miles or 10**9).  Note the asymmetry: a price of 0 is kept, but a
miles of 0 is falsy and becomes the sentinel. -/
def sortKey (r : Listing) : Int × Int :=
  ((match r.price with | none => 1000000000 | some p => p),
   (match r.miles with | some m => if m != 0 then m else 1000000000 | none => 1000000000))

/-- Non-strict lexicographic order on sort keys. -/
def keyLe (a b : Int × Int) : Bool :=
  decide (a.1 < b.1) || (decide (a.1 = b.1) && decide (a.2 ≤ b.2))

/-- Stable insertion of a later row after all earlier rows with key ≤ its
key. -/
def insertByKey (r : Listing) : List Listing → List Listing
  | [] => [r]
  | x :: xs => if keyLe (sortKey x) (sortKey r) then x :: insertByKey r xs else r :: x :: xs

/-- list.sort(key=...): stable ascending sort (insertion formulation). -/
def pySortByKey (rows : List Listing) : List Listing :=
  rows.foldl (fun acc r => insertByKey r acc) []

/-- The pure tail every site scraper applies to its collected rows before
returning: exact-year filter, then dedupe-and-trim to the cap. -/
def scrapeTail (raw : List Listing) (year : Int) (k : Nat) : List Listing :=
  _dedupe_and_trim (_enforce_year raw year) k

/-- Pure model of query_listings_async: each task either faulted
(contributing no rows) or yields the scraper tail of its collected raw
rows; results are concatenated in task order with no cross-source dedup;
an optional enrichment pass (per-listing outcome f) is followed by the
exact-year re-filter; rows without a truthy url are dropped; finally the
stable ascending sort by sortKey. -/
def query_listings_model (tasks : List (Except Unit (List Listing))) (year : Int) (k : Nat)
    (enrich : Bool) (f : Listing → Except Unit Listing) : List Listing :=
  let out := tasks.foldl
    (fun acc t =>
      match t with
      | .error _ => acc
      | .ok raw => acc ++ scrapeTail raw year k) []
  let out1 := if enrich then _enforce_year (enrichPass f out) year else out
  let out2 := out1.filter (fun r => truthyS r.url)
  pySortByKey out2

/-- A JSON value as walked by _walk_find_listings. -/
inductive JVal where
  | jstr (s : String)
  | jnum (n : Int)
  | jbool (b : Bool)
  | jnull
  | jarr (xs : List JVal)
  | jobj (fields : List (String × JVal))

/-- The fixed KEYS vocabulary of _walk_find_listings. -/
def listingVocab : List String :=
  ["price", "listPrice", "primaryPrice", "mileage", "miles", "year", "make",
   "model", "title", "heading", "vdpUrl", "url", "vin"]

/-- Python str.lower restricted to ASCII. -/
def lowerStr (s : String) : String := String.mk (s.data.map asciiLower)

/-- looks(d): the set of lower-cased keys of d meets the lower-cased
vocabulary in at least 3 elements. -/
def looks (d : List (String × JVal)) : Bool :=
  3 ≤ (((d.map (fun kv => lowerStr kv.1)).eraseDups).filter
        (fun k => (listingVocab.map lowerStr).contains k)).length

/-- _walk_find_listings: depth-first pre-order walk collecting every
dictionary that looks like a listing, continuing into the values of a
dictionary even after it matched, and into array elements. -/
def walkJ : JVal → List (List (String × JVal))
  | .jobj fs =>
    (if looks fs then [fs] else []) ++
      (fs.attach.map (fun kv => walkJ kv.val.2)).flatten
  | .jarr xs => (xs.attach.map (fun v => walkJ v.val)).flatten
  | _ => []
decreasing_by
  · rcases kv with ⟨⟨a, b⟩, hm⟩
    have h1 := List.sizeOf_lt_of_mem hm
    simp at h1 ⊢
    omega
  · rcases v with ⟨w, hm⟩
    have h1 := List.sizeOf_lt_of_mem hm
    simp at h1 ⊢
    omega

/-- A dictionary occurs in a JSON value if it is the value itself or sits
(at any depth) under a dictionary value or an array element. -/
inductive OccursIn : List (String × JVal) → JVal → Prop where
  | here (fs : List (String × JVal)) : OccursIn fs (.jobj fs)
  | inObj {d : List (String × JVal)} {fs : List (String × JVal)} {kv : String × JVal}
      (hm : kv ∈ fs) (h : OccursIn d kv.2) : OccursIn d (.jobj fs)
  | inArr {d : List (String × JVal)} {xs : List JVal} {v : JVal}
      (hm : v ∈ xs) (h : OccursIn d v) : OccursIn d (.jarr xs)

/-- Spec-side strict order on price-or-infinity / miles-or-infinity values
(null is larger than every concrete value, a concrete value - including
0 - stands for itself). -/
def specValLt (a b : Option Int) : Bool :=
  match a, b with
  | some x, some y => decide (x < y)
  | some _, none => true
  | none, _ => false

/-- Spec-side non-strict order on the same values. -/
def specValLe (a b : Option Int) : Bool :=
  match a, b with
  | some x, some y => decide (x ≤ y)
  | _, none => true
  | none, some _ => false

/-- Spec-side lexicographic order on (priceOrInf, milesOrInf), following
the spec sentence word for word, to be compared with the code's sortKey
order. -/
def specKeyLe (a b : Listing) : Bool :=
  specValLt a.price b.price || (a.price == b.price && specValLe a.miles b.miles)

/-- Fixture: a listing whose miles value is the concrete 0. -/
def rowMilesZero : Listing :=
  { source := "Autotrader", title := some "t", price := some 5, miles := some 0,
    year := some 2015, location := none, dealer := none, url := some "https://s.com/a" }

/-- Fixture: a listing with the same price and positive miles. -/
def rowMilesHundred : Listing :=
  { source := "Autotrader", title := some "t", price := some 5, miles := some 100,
    year := some 2015, location := none, dealer := none, url := some "https://s.com/b" }

/-- Fixture: a listing from one scraper whose URL carries a query string. -/
def rowDupA : Listing :=
  { source := "Autotrader", title := some "t", price := some 1, miles := some 2,
    year := some 2015, location := none, dealer := none, url := some "https://s.com/v?a=1" }

/-- Fixture: a listing from the other scraper whose URL differs only in the
query string, so its normalized URL is the same. -/
def rowDupB : Listing :=
  { source := "Cars.com", title := some "t", price := some 2, miles := some 2,
    year := some 2015, location := none, dealer := none, url := some "https://s.com/v?b=2" }

/-- Fixture: a listing entering enrichment with the concrete price 0 (and
everything else populated). -/
def rowPriceZero : Listing :=
  { source := "Cars.com", title := some "t", price := some 0, miles := some 8,
    year := some 2015, location := none, dealer := none, url := some "https://s.com/p0" }

/-- Fixture: a detail page whose price selector read returns "$123" and
whose other reads fail. -/
def pagePrice123 : VdpPage :=
  { priceRead := some (some "$123"), milesRead := none, titleRead := none, html := "" }


theorem charOfNat_toNat (m : Nat) (h : m < 55296) : (Char.ofNat m).toNat = m := by
  unfold Char.ofNat
  rw [dif_pos (Or.inl h)]
  rfl

theorem char_ne_of_toNat_ne {a b : Char} (h : a.toNat ≠ b.toNat) : a ≠ b :=
  fun e => h (congrArg Char.toNat e)

theorem asciiLower_toNat (c : Char) :
    (asciiLower c).toNat = if 65 ≤ c.toNat ∧ c.toNat ≤ 90 then c.toNat + 32 else c.toNat := by
  unfold asciiLower
  split
  · next h => exact charOfNat_toNat _ (by omega)
  · rfl

theorem asciiLower_eq_self {c : Char} (h : ¬(65 ≤ c.toNat ∧ c.toNat ≤ 90)) :
    asciiLower c = c := by
  unfold asciiLower
  exact if_neg h

theorem asciiLower_idem (c : Char) : asciiLower (asciiLower c) = asciiLower c := by
  by_cases h : 65 ≤ c.toNat ∧ c.toNat ≤ 90
  · have ht : (asciiLower c).toNat = c.toNat + 32 := by rw [asciiLower_toNat, if_pos h]
    exact asciiLower_eq_self (by omega)
  · have hc : asciiLower c = c := asciiLower_eq_self h
    rw [hc, hc]

theorem isAsciiAlpha_asciiLower {c : Char} (h : isAsciiAlpha c = true) :
    isAsciiAlpha (asciiLower c) = true := by
  simp only [isAsciiAlpha, Bool.or_eq_true, Bool.and_eq_true, decide_eq_true_eq,
    asciiLower_toNat] at h ⊢
  split <;> omega

theorem isSchemeChar_asciiLower {c : Char} (h : isSchemeChar c = true) :
    isSchemeChar (asciiLower c) = true := by
  simp only [isSchemeChar, Bool.or_eq_true, decide_eq_true_eq] at h
  rcases h with ((((hA | hD) | hP) | hM) | hDot)
  · simp [isSchemeChar, isAsciiAlpha_asciiLower hA]
  · have hself : asciiLower c = c := by
      refine asciiLower_eq_self ?_
      simp only [isAsciiDigit, Bool.and_eq_true, decide_eq_true_eq] at hD
      omega
    simp [isSchemeChar, hself, hD]
  · subst hP; decide
  · subst hM; decide
  · subst hDot; decide

theorem isSchemeChar_of_alpha {c : Char} (h : isAsciiAlpha c = true) : isSchemeChar c = true := by
  simp [isSchemeChar, h]

theorem schemeChar_lower_set {c : Char} (h : isSchemeChar c = true) :
    (asciiLower c).toNat = 43 ∨ (asciiLower c).toNat = 45 ∨ (asciiLower c).toNat = 46 ∨
    (48 ≤ (asciiLower c).toNat ∧ (asciiLower c).toNat ≤ 57) ∨
    (97 ≤ (asciiLower c).toNat ∧ (asciiLower c).toNat ≤ 122) := by
  simp only [isSchemeChar, isAsciiAlpha, isAsciiDigit, Bool.or_eq_true, Bool.and_eq_true,
    decide_eq_true_eq] at h
  rw [asciiLower_toNat]
  rcases h with ((((hA | hD) | hP) | hM) | hDot)
  · split <;> omega
  · split <;> omega
  · have : c.toNat = 43 := by subst hP; decide
    split <;> omega
  · have : c.toNat = 45 := by subst hM; decide
    split <;> omega
  · have : c.toNat = 46 := by subst hDot; decide
    split <;> omega

theorem takeWhile_append_all {p : Char → Bool} {xs : List Char} (ys : List Char)
    (h : ∀ a ∈ xs, p a = true) : (xs ++ ys).takeWhile p = xs ++ ys.takeWhile p := by
  induction xs with
  | nil => simp
  | cons a l ih =>
    have ha := h a (List.mem_cons_self a l)
    simp only [List.cons_append, List.takeWhile_cons, ha, if_true]
    rw [ih (fun b hb => h b (List.mem_cons_of_mem a hb))]

theorem dropWhile_append_all {p : Char → Bool} {xs : List Char} (ys : List Char)
    (h : ∀ a ∈ xs, p a = true) : (xs ++ ys).dropWhile p = ys.dropWhile p := by
  induction xs with
  | nil => simp
  | cons a l ih =>
    have ha := h a (List.mem_cons_self a l)
    simp only [List.cons_append, List.dropWhile_cons, ha, if_true]
    exact ih (fun b hb => h b (List.mem_cons_of_mem a hb))

theorem cutOnFirst_of_not_mem {ch : Char} {l : List Char} (h : ∀ a ∈ l, a ≠ ch) :
    cutOnFirst ch l = (l, []) := by
  unfold cutOnFirst
  have ht : l.takeWhile (fun c => c != ch) = l :=
    List.takeWhile_eq_self_iff.mpr (fun a ha => by simp [h a ha])
  have hd : l.dropWhile (fun c => c != ch) = [] :=
    List.dropWhile_eq_nil_iff.mpr (fun a ha => by simp [h a ha])
  rw [ht, hd]
  rfl

theorem filter_eq_self_of_all {p : Char → Bool} {l : List Char} (h : ∀ a ∈ l, p a = true) :
    l.filter p = l := List.filter_eq_self.mpr h

theorem dropWhile_cons_of_false {p : Char → Bool} {a : Char} (l : List Char)
    (h : p a = false) : (a :: l).dropWhile p = a :: l := by
  simp [List.dropWhile_cons, h]

theorem keyLe_total (a b : Int × Int) : keyLe a b = true ∨ keyLe b a = true := by
  simp only [keyLe, Bool.or_eq_true, Bool.and_eq_true, decide_eq_true_eq]
  omega

theorem keyLe_trans {a b c : Int × Int} (h1 : keyLe a b = true) (h2 : keyLe b c = true) :
    keyLe a c = true := by
  simp only [keyLe, Bool.or_eq_true, Bool.and_eq_true, decide_eq_true_eq] at h1 h2 ⊢
  omega

theorem mem_insertByKey {r x : Listing} {l : List Listing} :
    x ∈ insertByKey r l ↔ x = r ∨ x ∈ l := by
  induction l with
  | nil => simp [insertByKey]
  | cons a t ih =>
    simp only [insertByKey]
    split
    · simp only [List.mem_cons, ih]
      tauto
    · simp [List.mem_cons]

theorem insertByKey_pairwise {r : Listing} {l : List Listing}
    (h : List.Pairwise (fun a b => keyLe (sortKey a) (sortKey b) = true) l) :
    List.Pairwise (fun a b => keyLe (sortKey a) (sortKey b) = true) (insertByKey r l) := by
  induction l with
  | nil => simp [insertByKey]
  | cons a t ih =>
    rcases List.pairwise_cons.mp h with ⟨ha, ht⟩
    simp only [insertByKey]
    split
    · next hle =>
      refine List.pairwise_cons.mpr ⟨?_, ih ht⟩
      intro b hb
      rcases mem_insertByKey.mp hb with rfl | hbt
      · exact hle
      · exact ha b hbt
    · next hnle =>
      refine List.pairwise_cons.mpr ⟨?_, h⟩
      intro b hb
      have hra : keyLe (sortKey r) (sortKey a) = true := by
        rcases keyLe_total (sortKey r) (sortKey a) with h1 | h1
        · exact h1
        · exact absurd h1 hnle
      rcases List.mem_cons.mp hb with rfl | hbt
      · exact hra
      · exact keyLe_trans hra (ha b hbt)

theorem sortGo_pairwise (rows : List Listing) (acc : List Listing)
    (hacc : List.Pairwise (fun a b => keyLe (sortKey a) (sortKey b) = true) acc) :
    List.Pairwise (fun a b => keyLe (sortKey a) (sortKey b) = true)
      (rows.foldl (fun acc r => insertByKey r acc) acc) := by
  induction rows generalizing acc with
  | nil => exact hacc
  | cons a t ih => exact ih _ (insertByKey_pairwise hacc)

theorem pySortByKey_pairwise (rows : List Listing) :
    List.Pairwise (fun a b => keyLe (sortKey a) (sortKey b) = true) (pySortByKey rows) :=
  sortGo_pairwise rows [] (by simp)

theorem mem_sortGo {x : Listing} (rows : List Listing) (acc : List Listing) :
    x ∈ rows.foldl (fun acc r => insertByKey r acc) acc ↔ x ∈ acc ∨ x ∈ rows := by
  induction rows generalizing acc with
  | nil => simp
  | cons a t ih =>
    simp only [List.foldl_cons, ih, mem_insertByKey, List.mem_cons]
    tauto

theorem mem_pySortByKey {x : Listing} {rows : List Listing} :
    x ∈ pySortByKey rows ↔ x ∈ rows := by
  unfold pySortByKey
  rw [mem_sortGo]
  simp

theorem contains_false_of_not {seen : List String} {u : String}
    (h : ¬ seen.contains u = true) : seen.contains u = false := by
  cases hc : seen.contains u
  · rfl
  · exact absurd hc h

theorem dedupeGo_mem_spec {k : Nat} {l : Listing} :
    ∀ {rows : List Listing} {n : Nat} {seen : List String},
      l ∈ dedupeGo k n rows seen →
      ∃ u pre r post, rows = pre ++ r :: post ∧ _normalize_url r.url = some u ∧ u ≠ "" ∧
        seen.contains u = false ∧ l = { r with url := some u } ∧
        ∀ r2 ∈ pre, _normalize_url r2.url ≠ some u := by
  intro rows
  induction rows with
  | nil => intro n seen h; simp [dedupeGo] at h
  | cons r0 rest ih =>
    intro n seen h
    simp only [dedupeGo] at h
    rcases hnorm : _normalize_url r0.url with _ | u0 <;> simp only [hnorm] at h
    · rcases ih h with ⟨u, pre, r, post, hrows, hn, hne, hc, hl, hpre⟩
      refine ⟨u, r0 :: pre, r, post, by rw [hrows]; rfl, hn, hne, hc, hl, ?_⟩
      intro r2 hr2
      rcases List.mem_cons.mp hr2 with rfl | hr2p
      · rw [hnorm]; exact fun he => Option.noConfusion he
      · exact hpre r2 hr2p
    · by_cases hu0 : u0 = ""
      · rw [if_pos hu0] at h
        rcases ih h with ⟨u, pre, r, post, hrows, hn, hne, hc, hl, hpre⟩
        refine ⟨u, r0 :: pre, r, post, by rw [hrows]; rfl, hn, hne, hc, hl, ?_⟩
        intro r2 hr2
        rcases List.mem_cons.mp hr2 with rfl | hr2p
        · rw [hnorm, hu0]
          intro he
          exact hne (Option.some.inj he).symm
        · exact hpre r2 hr2p
      · rw [if_neg hu0] at h
        by_cases hseen : seen.contains u0 = true
        · rw [if_pos hseen] at h
          rcases ih h with ⟨u, pre, r, post, hrows, hn, hne, hc, hl, hpre⟩
          refine ⟨u, r0 :: pre, r, post, by rw [hrows]; rfl, hn, hne, hc, hl, ?_⟩
          intro r2 hr2
          rcases List.mem_cons.mp hr2 with rfl | hr2p
          · rw [hnorm]
            intro he
            rw [Option.some.inj he] at hseen
            rw [hseen] at hc
            exact Bool.noConfusion hc
          · exact hpre r2 hr2p
        · rw [if_neg hseen] at h
          by_cases hk : k ≤ n + 1
          · rw [if_pos hk] at h
            rcases List.mem_singleton.mp h with rfl
            exact ⟨u0, [], r0, rest, rfl, hnorm, hu0, contains_false_of_not hseen, rfl,
              fun r2 hr2 => absurd hr2 (List.not_mem_nil r2)⟩
          · rw [if_neg hk] at h
            rcases List.mem_cons.mp h with rfl | htail
            · exact ⟨u0, [], r0, rest, rfl, hnorm, hu0, contains_false_of_not hseen, rfl,
                fun r2 hr2 => absurd hr2 (List.not_mem_nil r2)⟩
            · rcases ih htail with ⟨u, pre, r, post, hrows, hn, hne, hc, hl, hpre⟩
              have hcontains : (u0 :: seen).contains u = false := hc
              have hu0u : u0 ≠ u := by
                intro he
                simp [List.contains_cons, he] at hcontains
              have hcseen : seen.contains u = false := by
                simp only [List.contains_cons, Bool.or_eq_false_iff] at hcontains
                exact hcontains.2
              refine ⟨u, r0 :: pre, r, post, by rw [hrows]; rfl, hn, hne, hcseen, hl, ?_⟩
              intro r2 hr2
              rcases List.mem_cons.mp hr2 with rfl | hr2p
              · rw [hnorm]
                intro he
                exact hu0u (Option.some.inj he)
              · exact hpre r2 hr2p

theorem dedupeGo_pairwise {k : Nat} :
    ∀ {rows : List Listing} {n : Nat} {seen : List String},
      (dedupeGo k n rows seen).Pairwise (fun a b => a.url ≠ b.url) := by
  intro rows
  induction rows with
  | nil => intro n seen; simp [dedupeGo]
  | cons r0 rest ih =>
    intro n seen
    simp only [dedupeGo]
    rcases hnorm : _normalize_url r0.url with _ | u0 <;> simp only [hnorm]
    · exact ih
    · by_cases hu0 : u0 = ""
      · rw [if_pos hu0]; exact ih
      · rw [if_neg hu0]
        by_cases hseen : seen.contains u0 = true
        · rw [if_pos hseen]; exact ih
        · rw [if_neg hseen]
          by_cases hk : k ≤ n + 1
          · rw [if_pos hk]; simp
          · rw [if_neg hk]
            refine List.pairwise_cons.mpr ⟨?_, ih⟩
            intro b hb
            rcases dedupeGo_mem_spec hb with ⟨u, pre, r, post, hrows, hn, hne, hc, hl, hpre⟩
            have hu0u : u0 ≠ u := by
              intro he
              simp [List.contains_cons, he] at hc
            rw [hl]
            simp only [ne_eq, Option.some.injEq]
            exact hu0u

theorem mem_enforce_year {rows : List Listing} {y : Int} {r : Listing} :
    r ∈ _enforce_year rows y ↔ r ∈ rows ∧ r.year = some y := by
  unfold _enforce_year
  rw [List.mem_filter]
  simp

theorem mem_aggOut {year : Int} {k : Nat} {l : Listing} :
    ∀ {tasks : List (Except Unit (List Listing))} (acc : List Listing),
      l ∈ tasks.foldl
        (fun acc t =>
          match t with
          | .error _ => acc
          | .ok raw => acc ++ scrapeTail raw year k) acc ↔
      l ∈ acc ∨ ∃ raw, Except.ok raw ∈ tasks ∧ l ∈ scrapeTail raw year k := by
  intro tasks
  induction tasks with
  | nil => intro acc; simp
  | cons t rest ih =>
    intro acc
    cases t with
    | error e =>
      rw [List.foldl_cons, ih]
      simp
    | ok raw0 =>
      rw [List.foldl_cons, ih]
      simp only [List.mem_append, List.mem_cons]
      constructor
      · rintro ((hacc | hdup) | ⟨raw, hmem, hl⟩)
        · exact Or.inl hacc
        · exact Or.inr ⟨raw0, Or.inl rfl, hdup⟩
        · exact Or.inr ⟨raw, Or.inr hmem, hl⟩
      · rintro (hacc | ⟨raw, hmem | hmem, hl⟩)
        · exact Or.inl (Or.inl hacc)
        · rcases Except.ok.inj hmem with rfl
          exact Or.inl (Or.inr hl)
        · exact Or.inr ⟨raw, hmem, hl⟩

theorem dropWhile_head_false {p : Char → Bool} :
    ∀ {l a : List Char} {c : Char}, l.dropWhile p = c :: a → p c = false := by
  intro l
  induction l with
  | nil => intro a c h; exact absurd h (by simp)
  | cons x r ih =>
    intro a c h
    rw [List.dropWhile_cons] at h
    by_cases hx : p x = true
    · rw [if_pos hx] at h
      exact ih h
    · rw [if_neg hx] at h
      rcases List.cons.inj h with ⟨h1, h2⟩
      rw [← h1]
      cases hpc : p x
      · rfl
      · exact absurd hpc hx

theorem map_asciiLower_idem (l : List Char) :
    (l.map asciiLower).map asciiLower = l.map asciiLower := by
  rw [List.map_map]
  exact List.map_congr_left (fun c _ => asciiLower_idem c)

theorem schemeLower_ne_colon {c : Char} (h : isSchemeChar c = true) :
    ((asciiLower c) != ':') = true := by
  have h58 : (':').toNat = 58 := rfl
  simp only [bne_iff_ne, ne_eq]
  intro he
  have ht := congrArg Char.toNat he
  rw [h58] at ht
  rcases schemeChar_lower_set h with h1 | h1 | h1 | h1 | h1 <;> omega

theorem schemeLower_notUnsafe {c : Char} (h : isSchemeChar c = true) :
    notUnsafeChar (asciiLower c) = true := by
  have h9 : ('\t').toNat = 9 := rfl
  have h13 : ('\r').toNat = 13 := rfl
  have h10 : ('\n').toNat = 10 := rfl
  rcases schemeChar_lower_set h with h1 | h1 | h1 | h1 | h1 <;>
  · have t1 : (decide (asciiLower c = '\t')) = false :=
      decide_eq_false (char_ne_of_toNat_ne (by omega))
    have t2 : (decide (asciiLower c = '\r')) = false :=
      decide_eq_false (char_ne_of_toNat_ne (by omega))
    have t3 : (decide (asciiLower c = '\n')) = false :=
      decide_eq_false (char_ne_of_toNat_ne (by omega))
    simp [notUnsafeChar, t1, t2, t3]

theorem schemeLower_not_space {c : Char} (h : isSchemeChar c = true) :
    isC0OrSpace (asciiLower c) = false := by
  rcases schemeChar_lower_set h with h1 | h1 | h1 | h1 | h1 <;>
  · have t1 : (decide ((asciiLower c).toNat ≤ 32)) = false := decide_eq_false (by omega)
    simp [isC0OrSpace, t1]

theorem splitNetloc_marker (r : List Char) :
    splitNetloc ('/' :: '/' :: r) =
      (r.takeWhile (fun c => !(c = '/' || c = '?' || c = '#')),
       r.dropWhile (fun c => !(c = '/' || c = '?' || c = '#'))) := by
  unfold splitNetloc
  rw [if_pos (show List.take 2 ('/' :: '/' :: r) = ['/', '/'] from rfl)]
  rfl

theorem netloc_split_of_inv {n p : List Char}
    (hnp : ∀ c ∈ n, (!(c = '/' || c = '?' || c = '#')) = true)
    (hp : p = [] ∨ ∃ t, p = '/' :: t) :
    splitNetloc ('/' :: '/' :: (n ++ p)) = (n, p) := by
  rw [splitNetloc_marker]
  have htake : (n ++ p).takeWhile (fun c => !(c = '/' || c = '?' || c = '#')) = n := by
    rw [takeWhile_append_all p hnp]
    rcases hp with rfl | ⟨t, rfl⟩
    · simp
    · rw [List.takeWhile_cons]
      simp
  have hdrop : (n ++ p).dropWhile (fun c => !(c = '/' || c = '?' || c = '#')) = p := by
    rw [dropWhile_append_all p hnp]
    rcases hp with rfl | ⟨t, rfl⟩
    · simp
    · exact dropWhile_cons_of_false t (by decide)
  rw [htake, hdrop]

theorem cutOnFirst_path {p : List Char}
    (hpq : ∀ c ∈ p, ((c != '#') = true) ∧ ((c != '?') = true)) :
    cutOnFirst '#' p = (p, []) ∧ cutOnFirst '?' p = (p, []) := by
  constructor
  · exact cutOnFirst_of_not_mem (fun a ha => by
      have := (hpq a ha).1
      simpa [bne_iff_ne] using this)
  · exact cutOnFirst_of_not_mem (fun a ha => by
      have := (hpq a ha).2
      simpa [bne_iff_ne] using this)

theorem resplit_unsplit (s n p : List Char)
    (hs : s = [] ∨ ∃ c0 a1, s = (c0 :: a1).map asciiLower ∧ isAsciiAlpha c0 = true ∧
          (∀ c ∈ a1, isSchemeChar c = true))
    (hn : n ≠ [])
    (hnp : ∀ c ∈ n, (!(c = '/' || c = '?' || c = '#')) = true)
    (hnu : ∀ c ∈ n, notUnsafeChar c = true)
    (hp : p = [] ∨ ∃ t, p = '/' :: t)
    (hpq : ∀ c ∈ p, ((c != '#') = true) ∧ ((c != '?') = true))
    (hpu : ∀ c ∈ p, notUnsafeChar c = true) :
    urlsplitChars [] (urlunsplitChars s n p [] []) = ⟨s, n, p, [], []⟩ := by
  have hallRest : ∀ c ∈ '/' :: '/' :: (n ++ p), notUnsafeChar c = true := by
    intro c hc
    rcases List.mem_cons.mp hc with rfl | hc
    · decide
    · rcases List.mem_cons.mp hc with rfl | hc
      · decide
      · rcases List.mem_append.mp hc with hc | hc
        · exact hnu c hc
        · exact hpu c hc
  have hurl : urlunsplitChars s n p [] [] =
      (if s ≠ [] then s ++ ':' :: ('/' :: '/' :: (n ++ p)) else '/' :: '/' :: (n ++ p)) := by
    simp only [urlunsplitChars]
    rw [if_pos (Or.inl hn)]
    have hinner : (if p ≠ [] ∧ p.head? ≠ some '/' then '/' :: p else p) = p := by
      rcases hp with rfl | ⟨t, rfl⟩
      · rw [if_neg]
        simp
      · rw [if_neg]
        simp
    rw [hinner]
    simp
  have hcuts := cutOnFirst_path hpq
  rcases hs with rfl | ⟨c0, a1, rfl, hc0, ha1⟩
  · rw [hurl, if_neg (by simp)]
    have h1 : (('/' :: '/' :: (n ++ p)).dropWhile isC0OrSpace) = '/' :: '/' :: (n ++ p) :=
      dropWhile_cons_of_false _ (by decide)
    have h2 : ('/' :: '/' :: (n ++ p)).filter notUnsafeChar = '/' :: '/' :: (n ++ p) :=
      filter_eq_self_of_all hallRest
    have h3 : splitScheme [] ('/' :: '/' :: (n ++ p)) = ([], '/' :: '/' :: (n ++ p)) := by
      simp only [splitScheme]
      rw [List.takeWhile_cons]
      simp only [show (('/' : Char) != ':') = true from rfl, if_true]
      rw [if_neg]
      simp [isAsciiAlpha]
    simp only [urlsplitChars, h1, h2, List.dropWhile_nil, List.reverse_nil, List.filter_nil]
    rw [h3]
    simp only []
    rw [netloc_split_of_inv hnp hp]
    simp only []
    rw [hcuts.1]
    simp only []
    rw [hcuts.2]
  · rw [hurl, if_pos (by simp)]
    have hsch : ∀ c ∈ (c0 :: a1).map asciiLower, isSchemeChar c = true := by
      intro c hc
      rcases List.mem_map.mp hc with ⟨d, hd, rfl⟩
      rcases List.mem_cons.mp hd with rfl | hd
      · exact isSchemeChar_asciiLower (isSchemeChar_of_alpha hc0)
      · exact isSchemeChar_asciiLower (ha1 d hd)
    have hsu : ∀ c ∈ (c0 :: a1).map asciiLower, notUnsafeChar c = true := by
      intro c hc
      rcases List.mem_map.mp hc with ⟨d, hd, rfl⟩
      rcases List.mem_cons.mp hd with rfl | hd
      · exact schemeLower_notUnsafe (isSchemeChar_of_alpha hc0)
      · exact schemeLower_notUnsafe (ha1 d hd)
    have hscolon : ∀ c ∈ (c0 :: a1).map asciiLower, (c != ':') = true := by
      intro c hc
      rcases List.mem_map.mp hc with ⟨d, hd, rfl⟩
      rcases List.mem_cons.mp hd with rfl | hd
      · exact schemeLower_ne_colon (isSchemeChar_of_alpha hc0)
      · exact schemeLower_ne_colon (ha1 d hd)
    have hall2 : ∀ c ∈ (c0 :: a1).map asciiLower ++ ':' :: ('/' :: '/' :: (n ++ p)),
        notUnsafeChar c = true := by
      intro c hc
      rcases List.mem_append.mp hc with hc | hc
      · exact hsu c hc
      · rcases List.mem_cons.mp hc with rfl | hc
        · decide
        · exact hallRest c hc
    have h1 : (((c0 :: a1).map asciiLower ++ ':' :: ('/' :: '/' :: (n ++ p))).dropWhile
        isC0OrSpace) = (c0 :: a1).map asciiLower ++ ':' :: ('/' :: '/' :: (n ++ p)) := by
      rw [List.map_cons, List.cons_append]
      exact dropWhile_cons_of_false _ (schemeLower_not_space (isSchemeChar_of_alpha hc0))
    have h2 : ((c0 :: a1).map asciiLower ++ ':' :: ('/' :: '/' :: (n ++ p))).filter
        notUnsafeChar = (c0 :: a1).map asciiLower ++ ':' :: ('/' :: '/' :: (n ++ p)) :=
      filter_eq_self_of_all hall2
    have htk : ((c0 :: a1).map asciiLower ++ ':' :: ('/' :: '/' :: (n ++ p))).takeWhile
        (fun c => c != ':') = (c0 :: a1).map asciiLower := by
      rw [takeWhile_append_all _ hscolon, List.takeWhile_cons]
      simp
    have hdw : ((c0 :: a1).map asciiLower ++ ':' :: ('/' :: '/' :: (n ++ p))).dropWhile
        (fun c => c != ':') = ':' :: ('/' :: '/' :: (n ++ p)) := by
      rw [dropWhile_append_all _ hscolon]
      exact dropWhile_cons_of_false _ (by decide)
    have h3 : splitScheme [] ((c0 :: a1).map asciiLower ++ ':' :: ('/' :: '/' :: (n ++ p))) =
        ((c0 :: a1).map asciiLower, '/' :: '/' :: (n ++ p)) := by
      simp only [splitScheme, htk, hdw]
      rw [if_pos]
      · rw [map_asciiLower_idem]
        rfl
      · refine (Bool.and_eq_true _ _).mpr ⟨?_, ?_⟩
        · simp only [decide_eq_true_eq, List.length_append, List.length_map, List.length_cons]
          omega
        · rw [List.map_cons]
          refine (Bool.and_eq_true _ _).mpr ⟨isAsciiAlpha_asciiLower hc0, ?_⟩
          rw [List.all_eq_true]
          intro c hc
          rcases List.mem_map.mp hc with ⟨d, hd, rfl⟩
          exact isSchemeChar_asciiLower (ha1 d hd)
    simp only [urlsplitChars, h1, h2, List.dropWhile_nil, List.reverse_nil, List.filter_nil]
    rw [h3]
    simp only []
    rw [netloc_split_of_inv hnp hp]
    simp only []
    rw [hcuts.1]
    simp only []
    rw [hcuts.2]

theorem splitScheme_cases (defS l : List Char) :
    (splitScheme defS l = (defS, l)) ∨
    (∃ c0 a1, l.takeWhile (fun c => c != ':') = c0 :: a1 ∧ isAsciiAlpha c0 = true ∧
      (∀ c ∈ a1, isSchemeChar c = true) ∧
      splitScheme defS l = ((c0 :: a1).map asciiLower, (l.dropWhile (fun c => c != ':')).drop 1)) := by
  simp only [splitScheme]
  split
  · next hcond =>
    rcases (Bool.and_eq_true _ _).mp hcond with ⟨hlen, hmatch⟩
    right
    cases htk : l.takeWhile (fun c => c != ':') with
    | nil =>
      rw [htk] at hmatch
      exact absurd hmatch (by simp)
    | cons c0 a1 =>
      rw [htk] at hmatch
      simp only [Bool.and_eq_true, List.all_eq_true] at hmatch
      exact ⟨c0, a1, rfl, hmatch.1, hmatch.2, rfl⟩
  · left
    rfl

theorem splitNetloc_cases (x : List Char) :
    (splitNetloc x = ([], x)) ∨
    (∃ r, x = '/' :: '/' :: r ∧
      splitNetloc x = (r.takeWhile (fun c => !(c = '/' || c = '?' || c = '#')),
                       r.dropWhile (fun c => !(c = '/' || c = '?' || c = '#')))) := by
  unfold splitNetloc
  by_cases h : x.take 2 = ['/', '/']
  · right
    refine ⟨x.drop 2, ?_, by rw [if_pos h]⟩
    have ht := List.take_append_drop 2 x
    rw [h] at ht
    exact ht.symm
  · left
    rw [if_neg h]

theorem urlsplit_inv (l : List Char) (hn : (urlsplitChars [] l).netloc ≠ []) :
    ((urlsplitChars [] l).scheme = [] ∨ ∃ c0 a1,
        (urlsplitChars [] l).scheme = (c0 :: a1).map asciiLower ∧ isAsciiAlpha c0 = true ∧
        (∀ c ∈ a1, isSchemeChar c = true)) ∧
    (∀ c ∈ (urlsplitChars [] l).netloc, (!(c = '/' || c = '?' || c = '#')) = true) ∧
    (∀ c ∈ (urlsplitChars [] l).netloc, notUnsafeChar c = true) ∧
    ((urlsplitChars [] l).path = [] ∨ ∃ t, (urlsplitChars [] l).path = '/' :: t) ∧
    (∀ c ∈ (urlsplitChars [] l).path, ((c != '#') = true) ∧ ((c != '?') = true)) ∧
    (∀ c ∈ (urlsplitChars [] l).path, notUnsafeChar c = true) := by
  have hl0u : ∀ c ∈ (l.dropWhile isC0OrSpace).filter notUnsafeChar, notUnsafeChar c = true :=
    fun c hc => List.of_mem_filter hc
  have hscheme : (urlsplitChars [] l).scheme =
      (splitScheme [] ((l.dropWhile isC0OrSpace).filter notUnsafeChar)).1 := rfl
  have hnetloc : (urlsplitChars [] l).netloc =
      (splitNetloc (splitScheme [] ((l.dropWhile isC0OrSpace).filter notUnsafeChar)).2).1 := rfl
  have hpath : (urlsplitChars [] l).path =
      (cutOnFirst '?' (cutOnFirst '#'
        (splitNetloc (splitScheme [] ((l.dropWhile isC0OrSpace).filter notUnsafeChar)).2).2).1).1 :=
    rfl
  have hsub2 : ∀ c ∈ (splitScheme [] ((l.dropWhile isC0OrSpace).filter notUnsafeChar)).2,
      c ∈ (l.dropWhile isC0OrSpace).filter notUnsafeChar := by
    rcases splitScheme_cases [] ((l.dropWhile isC0OrSpace).filter notUnsafeChar) with
      hsp | ⟨c0, a1, htk, hc0, ha1, hsp⟩
    · rw [hsp]
      exact fun c hc => hc
    · rw [hsp]
      intro c hc
      exact (List.dropWhile_sublist _).subset ((List.drop_sublist _ _).subset hc)
  rcases splitNetloc_cases (splitScheme [] ((l.dropWhile isC0OrSpace).filter notUnsafeChar)).2 with
    hnp0 | ⟨r, hxeq, hnp0⟩
  · exact absurd (by rw [hnetloc, hnp0]) hn
  · have hrsub : ∀ c ∈ r, c ∈ (l.dropWhile isC0OrSpace).filter notUnsafeChar := by
      intro c hc
      exact hsub2 c (by rw [hxeq]; exact List.mem_cons_of_mem _ (List.mem_cons_of_mem _ hc))
    refine ⟨?_, ?_, ?_, ?_, ?_, ?_⟩
    · rcases splitScheme_cases [] ((l.dropWhile isC0OrSpace).filter notUnsafeChar) with
        hsp | ⟨c0, a1, htk, hc0, ha1, hsp⟩
      · left
        rw [hscheme, hsp]
      · right
        exact ⟨c0, a1, by rw [hscheme, hsp], hc0, ha1⟩
    · rw [hnetloc, hnp0]
      dsimp only
      intro c hc
      exact List.mem_takeWhile_imp (l := r) (p := fun c => !(c = '/' || c = '?' || c = '#')) hc
    · rw [hnetloc, hnp0]
      dsimp only
      intro c hc
      exact hl0u c (hrsub c ((List.takeWhile_sublist _).subset hc))
    · rw [hpath, hnp0]
      dsimp only
      cases hr2 : r.dropWhile (fun c => !(c = '/' || c = '?' || c = '#')) with
      | nil =>
        left
        rfl
      | cons c2 t2 =>
        have hc2 : (c2 = '/' ∨ c2 = '?') ∨ c2 = '#' := by
          have hb := dropWhile_head_false hr2
          by_contra hcon
          push_neg at hcon
          simp [hcon.1.1, hcon.1.2, hcon.2] at hb
        simp only [cutOnFirst]
        rcases hc2 with (rfl | rfl) | rfl
        · right
          refine ⟨(t2.takeWhile (fun c => c != '#')).takeWhile (fun c => c != '?'), ?_⟩
          simp [List.takeWhile_cons]
        · left
          simp [List.takeWhile_cons]
        · left
          simp [List.takeWhile_cons]
    · rw [hpath, hnp0]
      dsimp only
      simp only [cutOnFirst]
      intro c hc
      refine ⟨?_, List.mem_takeWhile_imp (p := fun c => c != '?') hc⟩
      exact List.mem_takeWhile_imp (p := fun c => c != '#')
        ((List.takeWhile_sublist _).subset hc)
    · rw [hpath, hnp0]
      dsimp only
      simp only [cutOnFirst]
      intro c hc
      have h1 : c ∈ r.dropWhile (fun c => !(c = '/' || c = '?' || c = '#')) :=
        (List.takeWhile_sublist _).subset ((List.takeWhile_sublist _).subset hc)
      exact hl0u c (hrsub c ((List.dropWhile_sublist _).subset h1))

theorem urlsplit_normChars (l : List Char) (hn : (urlsplitChars [] l).netloc ≠ []) :
    urlsplitChars [] (normChars l) =
      ⟨(urlsplitChars [] l).scheme, (urlsplitChars [] l).netloc,
       (urlsplitChars [] l).path, [], []⟩ := by
  rcases urlsplit_inv l hn with ⟨h1, h2, h3, h4, h5, h6⟩
  exact resplit_unsplit _ _ _ h1 hn h2 h3 h4 h5 h6

theorem normChars_idem (l : List Char) (hn : (urlsplitChars [] l).netloc ≠ []) :
    normChars (normChars l) = normChars l := by
  have h : normChars (normChars l) =
      urlunsplitChars (urlsplitChars [] (normChars l)).scheme
        (urlsplitChars [] (normChars l)).netloc (urlsplitChars [] (normChars l)).path [] [] := rfl
  rw [h, urlsplit_normChars l hn]
  rfl

theorem urlunsplit_empty_qf (s n p : List Char) :
    urlunsplitChars s n p [] [] =
      (if s ≠ [] then s ++ ':' ::
        (if n ≠ [] ∨ (s ≠ [] ∧ s ∈ uses_netloc ∧ p.take 2 ≠ ['/', '/']) then
          '/' :: '/' :: (n ++ (if p ≠ [] ∧ p.head? ≠ some '/' then '/' :: p else p))
        else p)
      else
        (if n ≠ [] ∨ (s ≠ [] ∧ s ∈ uses_netloc ∧ p.take 2 ≠ ['/', '/']) then
          '/' :: '/' :: (n ++ (if p ≠ [] ∧ p.head? ≠ some '/' then '/' :: p else p))
        else p)) := by
  simp [urlunsplitChars]

theorem mem_urlunsplit {s n p : List Char} {c : Char}
    (hc : c ∈ urlunsplitChars s n p [] []) :
    c ∈ s ∨ c ∈ n ∨ c ∈ p ∨ c = '/' ∨ c = ':' := by
  rw [urlunsplit_empty_qf] at hc
  have hy : c ∈ (if n ≠ [] ∨ (s ≠ [] ∧ s ∈ uses_netloc ∧ p.take 2 ≠ ['/', '/']) then
      '/' :: '/' :: (n ++ (if p ≠ [] ∧ p.head? ≠ some '/' then '/' :: p else p))
    else p) → c ∈ n ∨ c ∈ p ∨ c = '/' := by
    intro hcy
    split at hcy
    · rcases List.mem_cons.mp hcy with rfl | hcy2
      · tauto
      · rcases List.mem_cons.mp hcy2 with rfl | hcy3
        · tauto
        · rcases List.mem_append.mp hcy3 with hcn | hcp
          · tauto
          · split at hcp
            · rcases List.mem_cons.mp hcp with rfl | hcp2 <;> tauto
            · tauto
    · tauto
  split at hc
  · rcases List.mem_append.mp hc with hcs | hcy
    · exact Or.inl hcs
    · rcases List.mem_cons.mp hcy with rfl | hcy2
      · tauto
      · have := hy hcy2
        tauto
  · have := hy hc
    tauto

theorem schemeLower_ne_qf {c : Char} (h : isSchemeChar c = true) :
    asciiLower c ≠ '?' ∧ asciiLower c ≠ '#' := by
  have h63 : ('?').toNat = 63 := rfl
  have h35 : ('#').toNat = 35 := rfl
  constructor
  · intro he
    have ht := congrArg Char.toNat he
    rw [h63] at ht
    rcases schemeChar_lower_set h with h1 | h1 | h1 | h1 | h1 <;> omega
  · intro he
    have ht := congrArg Char.toNat he
    rw [h35] at ht
    rcases schemeChar_lower_set h with h1 | h1 | h1 | h1 | h1 <;> omega

theorem normChars_no_qf (l : List Char) :
    ∀ c ∈ normChars l, c ≠ '?' ∧ c ≠ '#' := by
  intro c hc
  have hmem := mem_urlunsplit hc
  rcases hmem with hs | hn | hp | rfl | rfl
  · rcases splitScheme_cases [] ((l.dropWhile isC0OrSpace).filter notUnsafeChar) with
      hsp | ⟨c0, a1, htk, hc0, ha1, hsp⟩
    · have : (urlsplitChars [] l).scheme = [] := by
        rw [show (urlsplitChars [] l).scheme =
          (splitScheme [] ((l.dropWhile isC0OrSpace).filter notUnsafeChar)).1 from rfl, hsp]
      rw [this] at hs
      exact absurd hs (List.not_mem_nil c)
    · have hseq : (urlsplitChars [] l).scheme = (c0 :: a1).map asciiLower := by
        rw [show (urlsplitChars [] l).scheme =
          (splitScheme [] ((l.dropWhile isC0OrSpace).filter notUnsafeChar)).1 from rfl, hsp]
      rw [hseq] at hs
      rcases List.mem_map.mp hs with ⟨d, hd, rfl⟩
      rcases List.mem_cons.mp hd with rfl | hd2
      · exact schemeLower_ne_qf (isSchemeChar_of_alpha hc0)
      · exact schemeLower_ne_qf (ha1 d hd2)
  · rcases splitNetloc_cases
        (splitScheme [] ((l.dropWhile isC0OrSpace).filter notUnsafeChar)).2 with
      hnp0 | ⟨r, hxeq, hnp0⟩
    · have : (urlsplitChars [] l).netloc = [] := by
        rw [show (urlsplitChars [] l).netloc =
          (splitNetloc (splitScheme [] ((l.dropWhile isC0OrSpace).filter notUnsafeChar)).2).1
          from rfl, hnp0]
      rw [this] at hn
      exact absurd hn (List.not_mem_nil c)
    · have hneq : (urlsplitChars [] l).netloc =
          r.takeWhile (fun c => !(c = '/' || c = '?' || c = '#')) := by
        rw [show (urlsplitChars [] l).netloc =
          (splitNetloc (splitScheme [] ((l.dropWhile isC0OrSpace).filter notUnsafeChar)).2).1
          from rfl, hnp0]
      rw [hneq] at hn
      have := List.mem_takeWhile_imp (l := r)
        (p := fun c => !(c = '/' || c = '?' || c = '#')) hn
      simp only [Bool.not_eq_true', Bool.or_eq_false_iff, decide_eq_false_iff_not] at this
      exact ⟨this.1.2, this.2⟩
  · have hpeq : (urlsplitChars [] l).path =
        (cutOnFirst '?' (cutOnFirst '#'
          (splitNetloc (splitScheme []
            ((l.dropWhile isC0OrSpace).filter notUnsafeChar)).2).2).1).1 := rfl
    rw [hpeq] at hp
    simp only [cutOnFirst] at hp
    have h1 := List.mem_takeWhile_imp (p := fun c => c != '?') hp
    have h2 := List.mem_takeWhile_imp (p := fun c => c != '#')
      ((List.takeWhile_sublist _).subset hp)
    simp only [bne_iff_ne, ne_eq] at h1 h2
    exact ⟨h1, h2⟩
  · decide
  · decide

theorem occursIn_jobj_iff {d fs : List (String × JVal)} :
    OccursIn d (.jobj fs) ↔ d = fs ∨ ∃ kv ∈ fs, OccursIn d kv.2 := by
  constructor
  · intro h
    cases h with
    | here => exact Or.inl rfl
    | inObj hm h => exact Or.inr ⟨_, hm, h⟩
  · rintro (rfl | ⟨kv, hm, h⟩)
    · exact .here d
    · exact .inObj hm h

theorem occursIn_jarr_iff {d : List (String × JVal)} {xs : List JVal} :
    OccursIn d (.jarr xs) ↔ ∃ v ∈ xs, OccursIn d v := by
  constructor
  · intro h
    cases h with
    | inArr hm h => exact ⟨_, hm, h⟩
  · rintro ⟨v, hm, h⟩
    exact .inArr hm h

theorem not_occursIn_jstr {d : List (String × JVal)} {s : String} :
    ¬ OccursIn d (.jstr s) := fun h => nomatch h

theorem not_occursIn_jnum {d : List (String × JVal)} {n : Int} :
    ¬ OccursIn d (.jnum n) := fun h => nomatch h

theorem not_occursIn_jbool {d : List (String × JVal)} {b : Bool} :
    ¬ OccursIn d (.jbool b) := fun h => nomatch h

theorem not_occursIn_jnull {d : List (String × JVal)} :
    ¬ OccursIn d (.jnull) := fun h => nomatch h

theorem walkJ_correct_aux :
    ∀ (N : Nat) (x : JVal), sizeOf x ≤ N →
      ∀ d, (d ∈ walkJ x ↔ OccursIn d x ∧ looks d = true) := by
  intro N
  induction N with
  | zero =>
    intro x hx
    exfalso
    cases x <;> simp at hx
  | succ N ih =>
    intro x hx d
    cases x with
    | jstr s => simp [walkJ, not_occursIn_jstr]
    | jnum n => simp [walkJ, not_occursIn_jnum]
    | jbool b => simp [walkJ, not_occursIn_jbool]
    | jnull => simp [walkJ, not_occursIn_jnull]
    | jarr xs =>
      have hxs : sizeOf xs ≤ N := by
        simp at hx
        omega
      rw [occursIn_jarr_iff]
      have hmem : d ∈ walkJ (.jarr xs) ↔ ∃ v ∈ xs, d ∈ walkJ v := by
        rw [show walkJ (.jarr xs) = (xs.attach.map (fun v => walkJ v.val)).flatten from by
          simp [walkJ]]
        simp [List.mem_flatten, List.mem_map, List.mem_attach]
      rw [hmem]
      constructor
      · rintro ⟨v, hv, hd⟩
        have hsv : sizeOf v ≤ N := by
          have := List.sizeOf_lt_of_mem hv
          omega
        rcases (ih v hsv d).mp hd with ⟨ho, hl⟩
        exact ⟨⟨v, hv, ho⟩, hl⟩
      · rintro ⟨⟨v, hv, ho⟩, hl⟩
        have hsv : sizeOf v ≤ N := by
          have := List.sizeOf_lt_of_mem hv
          omega
        exact ⟨v, hv, (ih v hsv d).mpr ⟨ho, hl⟩⟩
    | jobj fs =>
      have hfs : sizeOf fs ≤ N := by
        simp at hx
        omega
      rw [occursIn_jobj_iff]
      have hmem : d ∈ walkJ (.jobj fs) ↔
          (looks fs = true ∧ d = fs) ∨ ∃ kv ∈ fs, d ∈ walkJ kv.2 := by
        rw [show walkJ (.jobj fs) =
          (if looks fs then [fs] else []) ++ (fs.attach.map (fun kv => walkJ kv.val.2)).flatten
          from by simp [walkJ]]
        rw [List.mem_append]
        constructor
        · rintro (hif | hfl)
          · left
            split at hif
            · next hl => exact ⟨hl, List.mem_singleton.mp hif⟩
            · exact absurd hif (List.not_mem_nil d)
          · right
            rw [List.mem_flatten] at hfl
            rcases hfl with ⟨L, hL, hdL⟩
            rcases List.mem_map.mp hL with ⟨kv, _, hLeq⟩
            rcases kv with ⟨⟨a, b⟩, hab⟩
            rw [← hLeq] at hdL
            exact ⟨(a, b), hab, hdL⟩
        · rintro (⟨hl, rfl⟩ | ⟨⟨a, b⟩, hm, hd⟩)
          · left
            rw [if_pos hl]
            exact List.mem_singleton.mpr rfl
          · right
            rw [List.mem_flatten]
            exact ⟨walkJ b, List.mem_map.mpr ⟨⟨(a, b), hm⟩, List.mem_attach _ _, rfl⟩, hd⟩
      rw [hmem]
      have hkv : ∀ kv : String × JVal, kv ∈ fs → sizeOf kv.2 ≤ N := by
        intro kv hkv
        have h1 := List.sizeOf_lt_of_mem hkv
        rcases kv with ⟨a, b⟩
        simp at h1 ⊢
        omega
      constructor
      · rintro (⟨hl, rfl⟩ | ⟨kv, hm, hd⟩)
        · exact ⟨Or.inl rfl, hl⟩
        · rcases (ih kv.2 (hkv kv hm) d).mp hd with ⟨ho, hl⟩
          exact ⟨Or.inr ⟨kv, hm, ho⟩, hl⟩
      · rintro ⟨rfl | ⟨kv, hm, ho⟩, hl⟩
        · exact Or.inl ⟨hl, rfl⟩
        · exact Or.inr ⟨kv, hm, (ih kv.2 (hkv kv hm) d).mpr ⟨ho, hl⟩⟩

theorem walkJ_correct (x : JVal) (d : List (String × JVal)) :
    d ∈ walkJ x ↔ OccursIn d x ∧ looks d = true :=
  walkJ_correct_aux (sizeOf x) x (Nat.le_refl _) d

theorem enrich_vdp_truthy_frame (pg : VdpPage) (row : Listing) :
    (truthyI row.price = true → (enrich_vdp pg row).price = row.price) ∧
    (truthyI row.miles = true → (enrich_vdp pg row).miles = row.miles) ∧
    (truthyS row.title = true → (enrich_vdp pg row).title = row.title) ∧
    (truthyI row.year = true → (enrich_vdp pg row).year = row.year) := by
  unfold enrich_vdp
  by_cases hu : truthyS row.url = false
  · rw [if_pos hu]
    exact ⟨fun _ => rfl, fun _ => rfl, fun _ => rfl, fun _ => rfl⟩
  · rw [if_neg hu]
    refine ⟨?_, ?_, ?_, ?_⟩
    · intro hp
      cases hpr : pg.priceRead with
      | none =>
        simp only [hpr]
        split <;> simp [pyOrI, hp]
      | some t =>
        simp only [hpr]
        split <;> simp [pyOrI, hp]
    · intro hm
      cases hmr : pg.milesRead with
      | none =>
        simp only [hmr]
        split <;> simp [pyOrI, hm]
      | some t =>
        simp only [hmr]
        split <;> simp [pyOrI, hm]
    · intro ht
      simp [ht]
    · intro hy
      simp [hy]

theorem aggOut_props {tasks : List (Except Unit (List Listing))} {year : Int} {k : Nat}
    {l : Listing}
    (hl : l ∈ tasks.foldl
      (fun acc t =>
        match t with
        | .error _ => acc
        | .ok raw => acc ++ scrapeTail raw year k) []) :
    l.year = some year ∧ ∃ u : String, l.url = some u ∧ u ≠ "" := by
  rcases (mem_aggOut []).mp hl with hacc | ⟨raw, _, hl2⟩
  · exact absurd hacc (List.not_mem_nil l)
  · unfold scrapeTail _dedupe_and_trim at hl2
    rcases dedupeGo_mem_spec hl2 with ⟨u, pre, r, post, hrows, _, hne, _, hleq, _⟩
    have hr : r ∈ _enforce_year raw year := by
      rw [hrows]
      exact List.mem_append_right _ (List.mem_cons_self _ _)
    have hy := (mem_enforce_year.mp hr).2
    constructor
    · rw [hleq]
      exact hy
    · exact ⟨u, by rw [hleq], hne⟩

theorem model_year_exact (tasks : List (Except Unit (List Listing))) (year : Int) (k : Nat)
    (enrich : Bool) (f : Listing → Except Unit Listing) :
    ∀ l ∈ query_listings_model tasks year k enrich f, l.year = some year := by
  intro l hl
  simp only [query_listings_model] at hl
  rw [mem_pySortByKey] at hl
  rcases List.mem_filter.mp hl with ⟨hl1, _⟩
  by_cases he : enrich
  · rw [if_pos he] at hl1
    exact (mem_enforce_year.mp hl1).2
  · rw [if_neg he] at hl1
    exact (aggOut_props hl1).1

/-- C1 (counterexample): two listings from two different scraper tasks whose
URLs normalize identically BOTH appear in the aggregator's output:
query_listings_async performs no cross-source deduplication, refuting the
claim that the aggregated list contains at most one of them. -/
theorem C1_counterexample :
    (query_listings_model [.ok [rowDupA], .ok [rowDupB]] 2015 8 false
      (fun _ => .error ())).length = 2 ∧
    (query_listings_model [.ok [rowDupA], .ok [rowDupB]] 2015 8 false
      (fun _ => .error ())).map Listing.url = [some "https://s.com/v", some "https://s.com/v"] ∧
    rowDupA ≠ rowDupB := by
  decide

/-- C1 (amended): within one Source Scraper's rows, _dedupe_and_trim keeps
at most one listing per normalized URL - the first encountered in iteration
order, with its url overwritten by the normalized form; the aggregator
concatenates the per-scraper outputs without any cross-source dedup, so two
listings with equal normalized URLs from different scrapers can both
appear. -/
theorem C1_amended (rows : List Listing) (k : Nat) :
    (_dedupe_and_trim rows k).Pairwise (fun a b => a.url ≠ b.url) ∧
    ∀ l ∈ _dedupe_and_trim rows k, ∃ u pre r post,
      rows = pre ++ r :: post ∧ _normalize_url r.url = some u ∧
      l = { r with url := some u } ∧
      ∀ r2 ∈ pre, _normalize_url r2.url ≠ some u := by
  refine ⟨dedupeGo_pairwise, ?_⟩
  intro l hl
  rcases dedupeGo_mem_spec hl with ⟨u, pre, r, post, hrows, hn, _, _, hleq, hpre⟩
  exact ⟨u, pre, r, post, hrows, hn, hleq, hpre⟩

/-- Witness for C1 (amended) at a concrete input. -/
theorem C1_amended_witness :
    (_dedupe_and_trim [rowDupA, rowDupB] 8).Pairwise (fun a b => a.url ≠ b.url) :=
  (C1_amended [rowDupA, rowDupB] 8).1

/-- C2 (counterexample): a listing whose price is the concrete (non-null)
value 0 has that price overwritten by enrichment, refuting the claim that a
non-null field - including 0 - is never changed. -/
theorem C2_counterexample :
    rowPriceZero.price = some 0 ∧
    (enrich_vdp pagePrice123 rowPriceZero).price = some 123 := by
  decide

/-- C2 (amended): enrichment backfill preserves every truthy field: if
price, miles or year is non-null AND non-zero, or title is non-null and
non-empty, before enrichment, it is unchanged after enrich_vdp; a field
holding the falsy 0 / "" may be overwritten (Python "or" semantics, not
None-coalescing). -/
theorem C2_amended (pg : VdpPage) (row : Listing) :
    (∀ p : Int, row.price = some p → p ≠ 0 → (enrich_vdp pg row).price = some p) ∧
    (∀ m : Int, row.miles = some m → m ≠ 0 → (enrich_vdp pg row).miles = some m) ∧
    (∀ t : String, row.title = some t → t ≠ "" → (enrich_vdp pg row).title = some t) ∧
    (∀ y : Int, row.year = some y → y ≠ 0 → (enrich_vdp pg row).year = some y) := by
  have h := enrich_vdp_truthy_frame pg row
  refine ⟨?_, ?_, ?_, ?_⟩
  · intro p hp hp0
    rw [h.1 (by simp [truthyI, hp, hp0]), hp]
  · intro m hm hm0
    rw [h.2.1 (by simp [truthyI, hm, hm0]), hm]
  · intro t ht ht0
    rw [h.2.2.1 (by simp [truthyS, ht, ht0]), ht]
  · intro y hy hy0
    rw [h.2.2.2 (by simp [truthyI, hy, hy0]), hy]

/-- Witness for C2 (amended) at a concrete input. -/
theorem C2_amended_witness :
    (enrich_vdp pagePrice123 rowMilesHundred).price = some 5 :=
  (C2_amended pagePrice123 rowMilesHundred).1 5 rfl (by decide)

/-- C3 (counterexample): the sort key treats miles = 0 as the falsy
sentinel (miles or 10**9), so a listing with miles 0 sorts after one with
miles 100 at equal price, refuting the claim that a concrete miles value 0
is treated as itself. -/
theorem C3_counterexample :
    query_listings_model [.ok [rowMilesZero, rowMilesHundred]] 2015 8 false
      (fun _ => .error ()) = [rowMilesHundred, rowMilesZero] ∧
    specKeyLe rowMilesHundred rowMilesZero = false := by
  decide

/-- C3 (amended): the output of query_listings_async is sorted ascending by
the code's actual key: (price, with null mapped to the sentinel 10**9;
miles, with null OR the concrete 0 mapped to the sentinel 10**9),
lexicographically - a price of 0 is kept as itself but a miles of 0 is
treated as the sentinel. -/
theorem C3_amended (tasks : List (Except Unit (List Listing))) (year : Int) (k : Nat)
    (enrich : Bool) (f : Listing → Except Unit Listing) :
    (query_listings_model tasks year k enrich f).Pairwise
      (fun a b => keyLe (sortKey a) (sortKey b) = true) := by
  simp only [query_listings_model]
  exact pySortByKey_pairwise _

/-- Witness for C3 (amended) at a concrete input. -/
theorem C3_amended_witness :
    (query_listings_model [.ok [rowMilesZero, rowMilesHundred]] 2015 8 false
      (fun _ => .error ())).Pairwise (fun a b => keyLe (sortKey a) (sortKey b) = true) :=
  C3_amended [.ok [rowMilesZero, rowMilesHundred]] 2015 8 false (fun _ => .error ())

/-- C4: every listing in the final output of query_listings_async has year
exactly equal to the requested target year, and the year-filter boundary
_enforce_year keeps exactly the rows whose year equals the target (a
differing or null year never survives). -/
theorem C4_year_exact (tasks : List (Except Unit (List Listing))) (year : Int) (k : Nat)
    (enrich : Bool) (f : Listing → Except Unit Listing) :
    (∀ l ∈ query_listings_model tasks year k enrich f, l.year = some year) ∧
    (∀ (rows : List Listing) (y : Int) (r : Listing),
      r ∈ _enforce_year rows y ↔ r ∈ rows ∧ r.year = some y) :=
  ⟨model_year_exact tasks year k enrich f, fun _ _ _ => mem_enforce_year⟩

/-- Witness for C4 at a concrete input. -/
theorem C4_witness :
    rowDupA.year = some 2015 :=
  (C4_year_exact [.ok [rowDupA]] 2015 8 false (fun _ => .error ())).1
    { rowDupA with url := some "https://s.com/v" } (by decide) ▸ rfl

/-- C5: a faulting enrichment for one listing is isolated: the enrichment
pass has the same length, keeps the faulted listing's pre-enrichment record
unchanged at its position, every other position depends only on its own
listing's enrichment outcome, and - at the orchestrator level - a listing
from the merged scraper rows whose enrichment faults still appears
unchanged in the final output of query_listings_async. -/
theorem C5_fault_isolation (f : Listing → Except Unit Listing) (out : List Listing)
    (i : Nat) (h : i < out.length) (hf : f out[i] = .error ()) :
    (enrichPass f out).length = out.length ∧
    (∀ h2 : i < (enrichPass f out).length, (enrichPass f out)[i] = out[i]) ∧
    (∀ (j : Nat) (hj : j < out.length) (hj2 : j < (enrichPass f out).length),
      (enrichPass f out)[j] = enrichStep f out[j]) ∧
    (∀ (tasks : List (Except Unit (List Listing))) (year : Int) (k : Nat) (l : Listing),
      l ∈ tasks.foldl
        (fun acc t =>
          match t with
          | .error _ => acc
          | .ok raw => acc ++ scrapeTail raw year k) [] →
      f l = .error () →
      l ∈ query_listings_model tasks year k true f) := by
  refine ⟨List.length_map _ _, ?_, ?_, ?_⟩
  · intro h2
    simp only [enrichPass]
    rw [List.getElem_map]
    unfold enrichStep
    split
    · rfl
    · rw [hf]
  · intro j hj hj2
    simp only [enrichPass]
    rw [List.getElem_map]
  · intro tasks year k l hl hferr
    have hstep : enrichStep f l = l := by
      unfold enrichStep
      split
      · rfl
      · rw [hferr]
    have hl2 : l ∈ enrichPass f (tasks.foldl
        (fun acc t =>
          match t with
          | .error _ => acc
          | .ok raw => acc ++ scrapeTail raw year k) []) := by
      unfold enrichPass
      rcases List.mem_map.mpr ⟨l, hl, hstep⟩ with hm
      exact hm
    rcases aggOut_props hl with ⟨hy, u, hu, hune⟩
    simp only [query_listings_model]
    rw [mem_pySortByKey]
    refine List.mem_filter.mpr ⟨?_, ?_⟩
    · exact mem_enforce_year.mpr ⟨hl2, hy⟩
    · rw [hu]
      simp [truthyS, hune]

/-- Witness for C5 at a concrete input. -/
theorem C5_witness :
    (enrichPass (fun _ => Except.error ()) [rowDupA]).length = ([rowDupA] : List Listing).length :=
  (C5_fault_isolation (fun _ => Except.error ()) [rowDupA] 0 (by decide) rfl).1

/-- C6: coercing the raw candidate with listPrice "$9,000", mileage
"30,000 miles", year "2015" and url "/vdp/1" against base
"https://site.com" yields price 9000, miles 30000, year 2015 and the
absolutized url, for any source tag. -/
theorem C6_coerce_roundtrip (source : String) :
    _coerce_listing
      [("listPrice", .vstr "$9,000"), ("mileage", .vstr "30,000 miles"),
       ("year", .vstr "2015"), ("url", .vstr "/vdp/1")] source "https://site.com" =
    { source := source, title := none, price := some 9000, miles := some 30000,
      year := some 2015, location := none, dealer := none,
      url := some "https://site.com/vdp/1" } := by
  rfl

/-- Witness for C6 at a concrete source. -/
theorem C6_witness :
    _coerce_listing
      [("listPrice", .vstr "$9,000"), ("mileage", .vstr "30,000 miles"),
       ("year", .vstr "2015"), ("url", .vstr "/vdp/1")] "Cars.com" "https://site.com" =
    { source := "Cars.com", title := none, price := some 9000, miles := some 30000,
      year := some 2015, location := none, dealer := none,
      url := some "https://site.com/vdp/1" } :=
  C6_coerce_roundtrip "Cars.com"

/-- C7: the structured-data walk collects exactly the dictionaries
occurring anywhere in the JSON value whose lower-cased key set meets the
thirteen-word vocabulary in at least 3 keys, and it keeps searching inside
the values of a dictionary even after that dictionary matched (a nested
matching dictionary of a matching dictionary is also collected). -/
theorem C7_walk_characterization (x : JVal) (d : List (String × JVal)) :
    d ∈ walkJ x ↔ OccursIn d x ∧ looks d = true :=
  walkJ_correct x d

/-- Witness for C7 at a concrete input. -/
theorem C7_witness :
    [("price", JVal.jnum 5), ("miles", JVal.jnum 1), ("vin", JVal.jstr "v")] ∈
      walkJ (JVal.jobj
        [("listPrice", JVal.jnum 9), ("mileage", JVal.jnum 2), ("url", JVal.jstr "u"),
         ("inner", JVal.jobj
           [("price", JVal.jnum 5), ("miles", JVal.jnum 1), ("vin", JVal.jstr "v")])]) ↔
    OccursIn [("price", JVal.jnum 5), ("miles", JVal.jnum 1), ("vin", JVal.jstr "v")]
      (JVal.jobj
        [("listPrice", JVal.jnum 9), ("mileage", JVal.jnum 2), ("url", JVal.jstr "u"),
         ("inner", JVal.jobj
           [("price", JVal.jnum 5), ("miles", JVal.jnum 1), ("vin", JVal.jstr "v")])]) ∧
    looks [("price", JVal.jnum 5), ("miles", JVal.jnum 1), ("vin", JVal.jstr "v")] = true :=
  C7_walk_characterization _ _

/-- C8: on a nonempty URL string, _normalize_url rebuilds the URL from
exactly the scheme, netloc and path of its parse with empty query and
fragment, and the result contains no "?" and no "#" character; the
spec's concrete example holds, and a null or empty input is returned
unchanged. -/
theorem C8_normalize_strips :
    (∀ u : String, u ≠ "" →
      _normalize_url (some u) =
        some (String.mk (urlunsplitChars (urlsplitChars [] u.data).scheme
          (urlsplitChars [] u.data).netloc (urlsplitChars [] u.data).path [] [])) ∧
      ∀ c ∈ normChars u.data, c ≠ '?' ∧ c ≠ '#') ∧
    _normalize_url (some "https://site.com/vdp/123?src=ads#top") =
      some "https://site.com/vdp/123" ∧
    _normalize_url none = none ∧ _normalize_url (some "") = some "" := by
  refine ⟨?_, by decide, rfl, by decide⟩
  intro u hu
  refine ⟨?_, normChars_no_qf u.data⟩
  show (if u = "" then some u else some (String.mk (normChars u.data))) = _
  rw [if_neg hu]
  rfl

/-- Witness for C8 at a concrete input. -/
theorem C8_witness :
    _normalize_url (some "http://a/b?c") =
      some (String.mk (urlunsplitChars (urlsplitChars [] ("http://a/b?c" : String).data).scheme
        (urlsplitChars [] ("http://a/b?c" : String).data).netloc
        (urlsplitChars [] ("http://a/b?c" : String).data).path [] [])) :=
  (C8_normalize_strips.1 "http://a/b?c" (by decide)).1

/-- C9: the field parsers meet the spec's concrete examples and null
propagation: the price, miles and year examples evaluate as stated, and
each parser returns null on absent or empty input. -/
theorem C9_parsers :
    parse_price (some "$12,500 OBO") = some 12500 ∧
    parse_price (some "Call for price") = none ∧
    parse_miles (some "45,213 miles") = some 45213 ∧
    parse_miles (some "") = none ∧
    parse_year_from_text (some "2015 Toyota Camry LE") = some 2015 ∧
    parse_year_from_text (some "Camry LE") = none ∧
    parse_price none = none ∧ parse_price (some "") = none ∧
    parse_miles none = none ∧
    parse_year_from_text none = none ∧ parse_year_from_text (some "") = none := by
  decide

/-- C10 (counterexample): _normalize_url is not idempotent on every string:
normalizing "//////a" yields "////a", and normalizing that again yields
"//a". -/
theorem C10_counterexample :
    _normalize_url (_normalize_url (some "//////a")) ≠ _normalize_url (some "//////a") := by
  decide

/-- C10 (amended): normalization is idempotent for every URL whose parse
has a nonempty network location (in particular every absolute http(s) URL);
and every listing kept by _dedupe_and_trim carries the normalized form of
some source row's URL, hence is a fixed point of normalization whenever
that row's URL parses with a nonempty network location. -/
theorem C10_amended :
    (∀ u : String, (urlsplitChars [] u.data).netloc ≠ [] →
      _normalize_url (_normalize_url (some u)) = _normalize_url (some u)) ∧
    (∀ (rows : List Listing) (k : Nat) (l : Listing), l ∈ _dedupe_and_trim rows k →
      ∃ r, r ∈ rows ∧ l.url = _normalize_url r.url ∧
        ∀ s0 : String, r.url = some s0 → (urlsplitChars [] s0.data).netloc ≠ [] →
          _normalize_url l.url = l.url) := by
  have hone : ∀ u : String, (urlsplitChars [] u.data).netloc ≠ [] →
      _normalize_url (_normalize_url (some u)) = _normalize_url (some u) := by
    intro u hnet
    by_cases hu : u = ""
    · subst hu
      exact absurd rfl hnet
    · have h1 : _normalize_url (some u) = some (String.mk (normChars u.data)) := by
        show (if u = "" then some u else some (String.mk (normChars u.data))) = _
        rw [if_neg hu]
      rw [h1]
      by_cases hz : String.mk (normChars u.data) = ""
      · show (if String.mk (normChars u.data) = "" then some (String.mk (normChars u.data))
            else some (String.mk (normChars (String.mk (normChars u.data)).data))) = _
        rw [if_pos hz]
      · show (if String.mk (normChars u.data) = "" then some (String.mk (normChars u.data))
            else some (String.mk (normChars (String.mk (normChars u.data)).data))) = _
        rw [if_neg hz]
        have hni : normChars (String.mk (normChars u.data)).data = normChars u.data :=
          normChars_idem u.data hnet
        rw [hni]
  refine ⟨hone, ?_⟩
  intro rows k l hl
  rcases dedupeGo_mem_spec hl with ⟨u0, pre, r, post, hrows, hnorm, hne, _, hleq, _⟩
  refine ⟨r, by rw [hrows]; exact List.mem_append_right _ (List.mem_cons_self _ _), ?_, ?_⟩
  · rw [hleq, hnorm]
  · intro s0 hs0 hnet
    have hlu : l.url = some u0 := by rw [hleq]
    rw [hlu]
    rw [hs0] at hnorm
    have h2 := hone s0 hnet
    rw [hnorm] at h2
    exact h2

/-- Witness for C10 (amended) at a concrete input. -/
theorem C10_amended_witness :
    _normalize_url (_normalize_url (some "https://a.com/b?x")) =
      _normalize_url (some "https://a.com/b?x") :=
  C10_amended.1 "https://a.com/b?x" (by decide)
